import Mathlib

set_option maxHeartbeats 1000000

/-
Verification of the discrete-time SEAIHRD epidemic core of
run_SEIHRD_model.py: the Markov transition function, the containment
(Heaviside / Kronecker) policy, the solver with its frozen intervention
scalars, the aggregation helpers and the MAE / grid-search calibration
helpers.  Python floats are embedded as real numbers (the float power
is the real power rpow); the data series handled by the calibration
helpers are embedded as lists of rationals; a numpy broadcast error is
embedded as the value none of an Option result.
-/

namespace SEIHRD

/-- The 8-component compartment state of the model: the state vector x
unpacked as S, E, CH, A, I, H, R, D in SEAIHRD_markov_step
(run_SEIHRD_model.py line 236) and built in the same order at line 180. -/
@[ext]
structure State where
  S : ℝ
  E : ℝ
  CH : ℝ
  A : ℝ
  I : ℝ
  H : ℝ
  R : ℝ
  D : ℝ

/-- The parameter tuple (β, k_avg, η, α, γI, μI, ν, γH, μH, κ0, σ, tc) of
run_SEIHRD_model.py (lines 234-235 and 256).  The intervention day tc is
a natural day index, or none, which embeds the sentinel tc = np.inf
(no intervention ever, line 231). -/
structure Params where
  β : ℝ
  k_avg : ℝ
  η : ℝ
  α : ℝ
  γI : ℝ
  μI : ℝ
  ν : ℝ
  γH : ℝ
  μH : ℝ
  κ0 : ℝ
  σ : ℝ
  tc : Option ℕ

/-- Heaviside function np.heaviside(t - tc, 1) (line 215): value 1 when
t ≥ tc, else 0.  For tc = np.inf (embedded as none) the argument is
-inf, so the value is 0 for every day t. -/
def Θ (t : ℕ) (tc : Option ℕ) : ℝ :=
  match tc with
  | none => 0
  | some m => if m ≤ t then 1 else 0

/-- Kronecker delta δ(t, tc) (lines 217-221).  A finite day t never
equals np.inf, so the none case is 0. -/
def δ (t : ℕ) (tc : Option ℕ) : ℝ :=
  match tc with
  | none => 0
  | some m => if t = m then 1 else 0

/-- Number of contacts k(t) (line 211):
(1 - κ0·Θ(t,tc))·k_avg + κ0·(σ - 1)·Θ(t,tc). -/
def k (t : ℕ) (p : Params) : ℝ :=
  (1 - p.κ0 * Θ t p.tc) * p.k_avg + p.κ0 * (p.σ - 1) * Θ t p.tc

/-- Infection probability P(I, A, t, ...) (line 213):
1 - (1-β)^(k(t)·(I+A)).  The Python float power is the real power. -/
noncomputable def P (I A : ℝ) (t : ℕ) (p : Params) : ℝ :=
  1 - (1 - p.β) ^ (k t p * (I + A))

/-- One step of the discrete-time Markovian SEAIHRD model,
SEAIHRD_markov_step (lines 225-245), with the frozen scalars S_tc and
CH_tc passed in by the solver. -/
noncomputable def SEAIHRD_markov_step (x : State) (t : ℕ) (S_tc CH_tc : ℝ)
    (p : Params) : State :=
  { S := x.S * (1 - P x.I x.A t p) * (1 - δ t p.tc * p.κ0 * CH_tc)
    E := x.S * P x.I x.A t p * (1 - δ t p.tc * p.κ0 * CH_tc) + (1 - p.η) * x.E
    CH := S_tc * p.κ0 * CH_tc * Θ t p.tc
    A := p.η * x.E + (1 - p.α) * x.A
    I := p.α * x.A + (1 - (p.γI + p.μI + p.ν)) * x.I
    H := p.ν * x.I + (1 - (p.γH + p.μH)) * x.H
    R := p.γI * x.I + p.γH * x.H + x.R
    D := p.μI * x.I + p.μH * x.H + x.D }

/-- One iteration of the loop body of solve (lines 259-268) acting on the
triple (xt, S_tc, CH_tc): when t == tc the frozen scalars are (re)set to
S and (S + R)**σ from the current state, then the transition function is
applied with the (possibly just captured) frozen scalars. -/
noncomputable def solveStep (p : Params) (t : ℕ) (s : State × ℝ × ℝ) :
    State × ℝ × ℝ :=
  let S_tc : ℝ := if p.tc = some t then s.1.S else s.2.1
  let CH_tc : ℝ := if p.tc = some t then (s.1.S + s.1.R) ^ p.σ else s.2.2
  (SEAIHRD_markov_step s.1 t S_tc CH_tc p, S_tc, CH_tc)

/-- The loop state of solve after i iterations, starting from
(x0, 0, 0) (lines 252-254; S_tc, CH_tc = 0, 0). -/
noncomputable def sysAt (p : Params) (x0 : State) : ℕ → State × ℝ × ℝ
  | 0 => (x0, 0, 0)
  | n + 1 => solveStep p n (sysAt p x0 n)

/-- The trajectory returned by solve (lines 248-270): sol[i] is the loop
state xt recorded before the i-th advance, so sol[i] is the state after
i steps.  The t0 argument of the Python solve is dead (t is immediately
rebound by the enumerate loop), and f is always SEAIHRD_markov_step, so
both are inlined. -/
noncomputable def solve (p : Params) (x0 : State) (n : ℕ) : List State :=
  (List.range n).map fun i => (sysAt p x0 i).1

/-- Sum of the eight compartments of a state (the conserved total). -/
def total (x : State) : ℝ :=
  x.S + x.E + x.CH + x.A + x.I + x.H + x.R + x.D

/-- All eight compartments are non-negative. -/
def NN (x : State) : Prop :=
  0 ≤ x.S ∧ 0 ≤ x.E ∧ 0 ≤ x.CH ∧ 0 ≤ x.A ∧ 0 ≤ x.I ∧ 0 ≤ x.H ∧ 0 ≤ x.R ∧ 0 ≤ x.D

/-- A valid parameter configuration: every rate is a probability per day
in [0, 1], the outflow sums γI+μI+ν and γH+μH are at most 1, the average
contact number is non-negative, κ0 is in [0, 1] and the household size σ
is at least 1. -/
def ValidParams (p : Params) : Prop :=
  0 ≤ p.β ∧ p.β ≤ 1 ∧ 0 ≤ p.k_avg ∧
  0 ≤ p.η ∧ p.η ≤ 1 ∧ 0 ≤ p.α ∧ p.α ≤ 1 ∧
  0 ≤ p.γI ∧ 0 ≤ p.μI ∧ 0 ≤ p.ν ∧ p.γI + p.μI + p.ν ≤ 1 ∧
  0 ≤ p.γH ∧ 0 ≤ p.μH ∧ p.γH + p.μH ≤ 1 ∧
  0 ≤ p.κ0 ∧ p.κ0 ≤ 1 ∧ 1 ≤ p.σ

/-- TotalCases (line 75): per-day I + H + R + D of one trajectory. -/
def TotalCases (sol : List State) : List ℝ :=
  sol.map fun x => x.I + x.H + x.R + x.D

/-- np.sum(..., axis=0) over a list of per-region day series (line 78):
the element-wise sum of the series. -/
def sumAxis0 : List (List ℝ) → List ℝ
  | [] => []
  | [v] => v
  | v :: w :: rest => List.zipWith (fun a b => a + b) v (sumAxis0 (w :: rest))

/-- CasesAggregation (line 78): apply the derived-quantity map f to each
region's trajectory and sum the resulting day series across regions. -/
def CasesAggregation (sols : List (List State)) (f : List State → List ℝ) :
    List ℝ :=
  sumAxis0 (sols.map f)

/-- The value np.mean(np.abs(x[:] - y[:len(x)])) computes when the
shapes match (len(x) ≤ len(y)): the mean absolute difference over the
first len(x) entries. -/
def MAEval (x y : List ℚ) : ℚ :=
  (((x.zip (y.take x.length)).map fun q => |q.1 - q.2|).sum) / (x.length : ℚ)

/-- MAE (line 62): np.mean(np.abs(x[:] - y[:len(x)])).  When
len(y) ≥ len(x) the shapes agree and the front windows are compared
element-wise.  When y[:len(x)] has length 1 numpy broadcasts the single
entry across x.  Any other shorter y raises a ValueError (shape
mismatch), embedded as none. -/
def MAE (x y : List ℚ) : Option ℚ :=
  if (y.take x.length).length = x.length then some (MAEval x y)
  else if (y.take x.length).length = 1 then
    some (((x.map fun a => |a - (y.take x.length).getD 0 0|).sum) / (x.length : ℚ))
  else none

/-- The specification's mean absolute error: the mean of the absolute
element-wise differences over the first min(len x, len y) entries of
both sequences.  Stated from the spec wording, to be compared with the
source MAE. -/
def MAEspec (x y : List ℚ) : ℚ :=
  (∑ i ∈ Finset.range (min x.length y.length), |x.getD i 0 - y.getD i 0|) /
    ((min x.length y.length : ℕ) : ℚ)

/-- cross_validation (line 201): the list of MAE values of the national
no-containment projection f r against the observed data, one per
candidate r.  The projection function f abstracts solve_national(r, 0.0)
(line 200), which closes over the external data files. -/
def cross_validation (data : List ℚ) (f : ℚ → List ℚ) (rs : List ℚ) :
    List (Option ℚ) :=
  rs.map fun r => MAE data (f r)

/-- Python min over a non-empty list of numbers (used at line 202). -/
def listMin : List ℚ → ℚ
  | [] => 0
  | a :: as => as.foldl min a

/-- Python list.index (line 202): index of the first occurrence. -/
def listIndex (a : ℚ) : List ℚ → ℕ
  | [] => 0
  | b :: l => if b = a then 0 else listIndex a l + 1

/-- r_min (line 202): r_range[mae_range.index(min(mae_range))]. -/
def r_min (rs maes : List ℚ) : ℚ :=
  rs.getD (listIndex (listMin maes) maes) 0

/-- Propagate a raised error out of a list of fallible results: the list
of values when every element is defined, none as soon as one raised. -/
def seqOpt : List (Option ℚ) → Option (List ℚ)
  | [] => some []
  | none :: _ => none
  | some a :: l => (seqOpt l).map fun t => a :: t

/-- The calibration pipeline of lines 199-202 and 346-348:
mae_range = cross_validation(data, r_range); r = r_min(r_range, mae_range).
A raised error inside cross_validation aborts the run (none). -/
def calibrate (data : List ℚ) (f : ℚ → List ℚ) (rs : List ℚ) : Option ℚ :=
  (seqOpt (cross_validation data f rs)).map fun maes => r_min rs maes

theorem sysAt_succ (p : Params) (x0 : State) (n : ℕ) :
    sysAt p x0 (n + 1) = solveStep p n (sysAt p x0 n) := rfl

theorem solve_length (p : Params) (x0 : State) (n : ℕ) :
    (solve p x0 n).length = n := by
  simp [solve]

theorem solve_getD (p : Params) (x0 : State) (n i : ℕ) (h : i < n) (d : State) :
    (solve p x0 n).getD i d = (sysAt p x0 i).1 := by
  simp [solve, List.getD_eq_getElem?_getD, List.getElem?_map, List.getElem?_range, h]

/-- The frozen scalars are still (0, 0) after i iterations when no day
before i equals tc. -/
theorem frozen_eq_zero (p : Params) (x0 : State) :
    ∀ i : ℕ, (∀ m, p.tc = some m → i ≤ m) → (sysAt p x0 i).2 = (0, 0) := by
  intro i
  induction i with
  | zero => intro _; rfl
  | succ n ih =>
    intro h
    have hcap : ¬ p.tc = some n := by
      intro hc
      have := h n hc
      omega
    have hprev : (sysAt p x0 n).2 = (0, 0) := by
      refine ih fun m hm => ?_
      have := h m hm
      omega
    rw [sysAt_succ]
    simp only [solveStep, if_neg hcap]
    rw [hprev]

/-- After the capture day tc = m has been processed, the frozen scalars
are the captured pair (S(m), (S(m) + R(m))^σ), for ever. -/
theorem frozen_eq_captured (p : Params) (x0 : State) (m : ℕ)
    (hm : p.tc = some m) :
    ∀ i : ℕ, m < i → (sysAt p x0 i).2 =
      ((sysAt p x0 m).1.S,
        ((sysAt p x0 m).1.S + (sysAt p x0 m).1.R) ^ p.σ) := by
  intro i
  induction i with
  | zero => omega
  | succ n ih =>
    intro h
    rcases Nat.lt_succ_iff_lt_or_eq.mp h with hlt | heq
    · have hcap : ¬ p.tc = some n := by
        rw [hm]
        intro hc
        have : m = n := by injection hc
        omega
      rw [sysAt_succ]
      simp only [solveStep, if_neg hcap]
      rw [ih hlt]
    · subst heq
      have hcap : p.tc = some m := hm
      rw [sysAt_succ]
      simp only [solveStep, if_pos hcap]

/-- The CH compartment is 0 after i iterations when no day strictly
before i is at or past tc and CH starts at 0. -/
theorem CH_eq_zero (p : Params) (x0 : State) (h0 : x0.CH = 0) :
    ∀ i : ℕ, (∀ m, p.tc = some m → i ≤ m) → ((sysAt p x0 i).1).CH = 0 := by
  intro i
  induction i with
  | zero => exact fun _ => h0
  | succ n ih =>
    intro h
    have hΘ : Θ n p.tc = 0 := by
      cases htc : p.tc with
      | none => rfl
      | some m =>
        have := h m htc
        simp [Θ]
        omega
    rw [sysAt_succ]
    simp only [solveStep, SEAIHRD_markov_step]
    rw [hΘ, mul_zero]

/-- From day tc + 1 on, the CH compartment holds the constant injection
value S_tc · κ0 · CH_tc built from the captured scalars. -/
theorem CH_after (p : Params) (x0 : State) (m : ℕ) (hm : p.tc = some m) :
    ∀ i : ℕ, m < i → ((sysAt p x0 i).1).CH =
      (sysAt p x0 m).1.S * p.κ0 *
        (((sysAt p x0 m).1.S + (sysAt p x0 m).1.R) ^ p.σ) := by
  intro i
  induction i with
  | zero => omega
  | succ n ih =>
    intro h
    have hΘ : Θ n p.tc = 1 := by
      rw [hm]
      simp [Θ]
      omega
    rcases Nat.lt_succ_iff_lt_or_eq.mp h with hlt | heq
    · have hcap : ¬ p.tc = some n := by
        rw [hm]
        intro hc
        have : m = n := by injection hc
        omega
      have hfr := frozen_eq_captured p x0 m hm n hlt
      rw [sysAt_succ]
      simp only [solveStep, if_neg hcap, SEAIHRD_markov_step]
      rw [hΘ, mul_one]
      rw [show (sysAt p x0 n).2.1 = ((sysAt p x0 n).2).1 from rfl,
        show (sysAt p x0 n).2.2 = ((sysAt p x0 n).2).2 from rfl, hfr]
    · subst heq
      rw [sysAt_succ]
      simp only [solveStep, if_pos hm, SEAIHRD_markov_step]
      rw [hΘ, mul_one]

/-- Sum of the eight compartments after one transition step: the old CH
is dropped, the δ-term removes S·κ0·CH_tc at the capture day, and the
Θ-term adds the injection S_tc·κ0·CH_tc. -/
theorem step_total (x : State) (t : ℕ) (S_tc CH_tc : ℝ) (p : Params) :
    total (SEAIHRD_markov_step x t S_tc CH_tc p) =
      total x - x.CH - x.S * (δ t p.tc * p.κ0 * CH_tc)
        + S_tc * p.κ0 * CH_tc * Θ t p.tc := by
  simp only [total, SEAIHRD_markov_step]
  ring

/-- Exact conservation along the solver loop: when the initial CH
compartment is 0, the sum of the eight compartments is preserved by
every iteration, for arbitrary real parameters. -/
theorem total_sysAt (p : Params) (x0 : State) (h0 : x0.CH = 0) :
    ∀ i : ℕ, total (sysAt p x0 i).1 = total x0 := by
  intro i
  induction i with
  | zero => rfl
  | succ n ih =>
    rw [sysAt_succ]
    cases htc : p.tc with
    | none =>
      have hCH : ((sysAt p x0 n).1).CH = 0 :=
        CH_eq_zero p x0 h0 n (by simp [htc])
      have hcap : ¬ p.tc = some n := by simp [htc]
      simp only [solveStep, if_neg hcap]
      rw [step_total, htc]
      simp only [δ, Θ]
      rw [hCH, ih]
      ring
    | some m =>
      rcases Nat.lt_trichotomy n m with hlt | heq | hgt
      · have hCH : ((sysAt p x0 n).1).CH = 0 := by
          refine CH_eq_zero p x0 h0 n fun m2 hm2 => ?_
          rw [htc] at hm2
          have : m = m2 := by injection hm2
          omega
        have hcap : ¬ p.tc = some n := by
          rw [htc]
          intro hc
          have : m = n := by injection hc
          omega
        simp only [solveStep, if_neg hcap]
        rw [step_total, htc]
        have hδ : δ n (some m) = 0 := by simp [δ]; omega
        have hΘ : Θ n (some m) = 0 := by simp [Θ]; omega
        rw [hδ, hΘ, hCH, ih]
        ring
      · subst heq
        have hCH : ((sysAt p x0 n).1).CH = 0 := by
          refine CH_eq_zero p x0 h0 n fun m2 hm2 => ?_
          rw [htc] at hm2
          have : n = m2 := by injection hm2
          omega
        have hcap : p.tc = some n := htc
        simp only [solveStep, if_pos hcap]
        rw [step_total, htc]
        have hδ : δ n (some n) = 1 := by simp [δ]
        have hΘ : Θ n (some n) = 1 := by simp [Θ]
        rw [hδ, hΘ, hCH, ih]
        ring
      · have hcap : ¬ p.tc = some n := by
          rw [htc]
          intro hc
          have : m = n := by injection hc
          omega
        have hfr := frozen_eq_captured p x0 m htc n hgt
        have hCH := CH_after p x0 m htc n hgt
        simp only [solveStep, if_neg hcap]
        rw [step_total, htc]
        have hδ : δ n (some m) = 0 := by simp [δ]; omega
        have hΘ : Θ n (some m) = 1 := by simp [Θ]; omega
        rw [hδ, hΘ, hCH, ih]
        rw [show (sysAt p x0 n).2.1 = ((sysAt p x0 n).2).1 from rfl,
          show (sysAt p x0 n).2.2 = ((sysAt p x0 n).2).2 from rfl, hfr]
        ring

/-- C1 (amended: the initial CH compartment must additionally be 0, as
in every model run of the script, line 176): for every ModelParameters
with rates in [0,1], γI+μI+ν ≤ 1, γH+μH ≤ 1, κ0 in [0,1], σ ≥ 1, and
every non-negative initial 8-vector summing to 1 whose CH component is
0, every state recorded in the trajectory returned by solve has its
eight compartments summing exactly to 1. -/
theorem solve_conservation (p : Params) (x0 : State) (n : ℕ)
    (hv : ValidParams p) (hx : NN x0) (hsum : total x0 = 1) (hCH : x0.CH = 0) :
    ∀ i, i < n → total ((solve p x0 n).getD i x0) = 1 := by
  intro i hi
  rw [solve_getD p x0 n i hi, total_sysAt p x0 hCH i, hsum]

/-- Witness for solve_conservation at a concrete valid run. -/
theorem solve_conservation_w :
    total ((solve ⟨0, 0, 0, 0, 0, 0, 0, 0, 0, 0, 1, none⟩
        ⟨1, 0, 0, 0, 0, 0, 0, 0⟩ 3).getD 1 ⟨1, 0, 0, 0, 0, 0, 0, 0⟩) = 1 :=
  solve_conservation _ _ 3 (by norm_num [ValidParams]) (by norm_num [NN])
    (by norm_num [total]) rfl 1 (by norm_num)

/-- Counterexample to C1 as stated: the valid all-zero-rate parameters
with κ0 = 0, σ = 1, tc = ∞ and the non-negative initial vector
(0,0,1,0,0,0,0,0), which sums to 1, give a recorded state at index 1
whose compartments sum to 0: the transition function drops the previous
CH mass instead of carrying it over. -/
theorem solve_conservation_cx :
    ValidParams ⟨0, 0, 0, 0, 0, 0, 0, 0, 0, 0, 1, none⟩
    ∧ NN ⟨0, 0, 1, 0, 0, 0, 0, 0⟩
    ∧ total ⟨0, 0, 1, 0, 0, 0, 0, 0⟩ = 1
    ∧ total ((solve ⟨0, 0, 0, 0, 0, 0, 0, 0, 0, 0, 1, none⟩
        ⟨0, 0, 1, 0, 0, 0, 0, 0⟩ 2).getD 1 ⟨0, 0, 1, 0, 0, 0, 0, 0⟩) = 0 := by
  refine ⟨by norm_num [ValidParams], by norm_num [NN], by norm_num [total], ?_⟩
  rw [solve_getD _ _ 2 1 (by norm_num)]
  rw [show (1 : ℕ) = 0 + 1 from rfl, sysAt_succ]
  simp [sysAt, solveStep, SEAIHRD_markov_step, total, Θ, δ]

/-- C2 (amended): the CH output of the transition function is the
injection S_tc · κ0 · CH_tc on every day t ≥ tc (Heaviside step, value 1
at t = tc itself), not only at t = tc, and it is 0 on days t < tc and
when tc is the never sentinel. -/
theorem step_CH_char (x : State) (t : ℕ) (S_tc CH_tc : ℝ) (p : Params) :
    (∀ m, p.tc = some m → m ≤ t →
      (SEAIHRD_markov_step x t S_tc CH_tc p).CH = S_tc * p.κ0 * CH_tc)
    ∧ (∀ m, p.tc = some m → t < m →
      (SEAIHRD_markov_step x t S_tc CH_tc p).CH = 0)
    ∧ (p.tc = none → (SEAIHRD_markov_step x t S_tc CH_tc p).CH = 0) := by
  refine ⟨fun m hm hle => ?_, fun m hm hlt => ?_, fun hm => ?_⟩
  · simp [SEAIHRD_markov_step, Θ, hm, hle]
  · have : ¬ m ≤ t := by omega
    simp [SEAIHRD_markov_step, Θ, hm, this]
  · simp [SEAIHRD_markov_step, Θ, hm]

/-- Witness for step_CH_char on a concrete day past tc. -/
theorem step_CH_char_w :
    (SEAIHRD_markov_step ⟨0, 0, 0, 0, 0, 0, 0, 0⟩ 3 2 5
      ⟨0, 0, 0, 0, 0, 0, 0, 0, 0, 1, 1, some 1⟩).CH = 2 * (1 : ℝ) * 5 := by
  exact (step_CH_char ⟨0, 0, 0, 0, 0, 0, 0, 0⟩ 3 2 5
    ⟨0, 0, 0, 0, 0, 0, 0, 0, 0, 1, 1, some 1⟩).1 1 rfl (by norm_num)

/-- Counterexample to C2 as stated: at day t = 1 with tc = 0 (so t ≠ tc)
and frozen scalars S_tc = CH_tc = 1, κ0 = 1, the CH output is 1, not 0:
the code multiplies by the Heaviside step Θ(t,tc), not by the Kronecker
delta, so the injection value is produced on every day t ≥ tc. -/
theorem step_CH_cx :
    ¬ (∀ (x : State) (t : ℕ) (S_tc CH_tc : ℝ) (p : Params),
        p.tc ≠ some t → (SEAIHRD_markov_step x t S_tc CH_tc p).CH = 0) := by
  intro hcl
  have h := hcl ⟨0, 0, 0, 0, 0, 0, 0, 0⟩ 1 1 1
    ⟨0, 0, 0, 0, 0, 0, 0, 0, 0, 1, 1, some 0⟩ (by simp)
  simp [SEAIHRD_markov_step, Θ] at h

/-- C10: in every trajectory produced by solve with tc = m, the CH
compartment is constant from index m+1 to the end of the trajectory,
equal to S(m)·κ0·(S(m)+R(m))^σ computed from the recorded state at
index m: it neither accumulates further nor resets to 0. -/
theorem solve_CH_constant (p : Params) (x0 : State) (m n : ℕ)
    (hm : p.tc = some m) :
    ∀ i, m < i → i < n →
      ((solve p x0 n).getD i x0).CH =
        ((solve p x0 n).getD m x0).S * p.κ0 *
          ((((solve p x0 n).getD m x0).S + ((solve p x0 n).getD m x0).R)
            ^ p.σ) := by
  intro i hmi hin
  have hmn : m < n := lt_trans hmi hin
  rw [solve_getD p x0 n i hin x0, solve_getD p x0 n m hmn x0]
  exact CH_after p x0 m hm i hmi

/-- Witness for solve_CH_constant at a concrete run with tc = 0. -/
theorem solve_CH_constant_w :
    ((solve ⟨0, 0, 0, 0, 0, 0, 0, 0, 0, 1, 1, some 0⟩
        ⟨1, 0, 0, 0, 0, 0, 0, 0⟩ 2).getD 1 ⟨1, 0, 0, 0, 0, 0, 0, 0⟩).CH =
      ((solve ⟨0, 0, 0, 0, 0, 0, 0, 0, 0, 1, 1, some 0⟩
          ⟨1, 0, 0, 0, 0, 0, 0, 0⟩ 2).getD 0 ⟨1, 0, 0, 0, 0, 0, 0, 0⟩).S * (1 : ℝ) *
        ((((solve ⟨0, 0, 0, 0, 0, 0, 0, 0, 0, 1, 1, some 0⟩
            ⟨1, 0, 0, 0, 0, 0, 0, 0⟩ 2).getD 0 ⟨1, 0, 0, 0, 0, 0, 0, 0⟩).S +
          ((solve ⟨0, 0, 0, 0, 0, 0, 0, 0, 0, 1, 1, some 0⟩
            ⟨1, 0, 0, 0, 0, 0, 0, 0⟩ 2).getD 0 ⟨1, 0, 0, 0, 0, 0, 0, 0⟩).R)
          ^ (1 : ℝ)) := by
  exact solve_CH_constant _ _ 0 2 rfl 1 (by norm_num) (by norm_num)

/-- C3: with tc = m < horizon, κ0 > 0, initial CH = 0, and S > 0 and
S + R > 0 at the capture day m, the frozen scalars stay (0,0) through
index m, are set exactly once to (S(m), (S(m)+R(m))^σ) from the state
current at day m, the recorded trajectory still shows CH = 0 at every
index ≤ m, and the confinement first appears at index m+1, where CH is
strictly positive. -/
theorem solve_freeze_capture (p : Params) (x0 : State) (m n : ℕ)
    (hm : p.tc = some m) (hmn : m < n) (hκ : 0 < p.κ0) (hCH0 : x0.CH = 0)
    (hS : 0 < (sysAt p x0 m).1.S)
    (hSR : 0 < (sysAt p x0 m).1.S + (sysAt p x0 m).1.R) :
    (∀ i, i ≤ m → (sysAt p x0 i).2 = (0, 0))
    ∧ (∀ i, m < i → (sysAt p x0 i).2 =
        ((sysAt p x0 m).1.S,
          ((sysAt p x0 m).1.S + (sysAt p x0 m).1.R) ^ p.σ))
    ∧ (∀ i, i ≤ m → ((solve p x0 n).getD i x0).CH = 0)
    ∧ (m + 1 < n → 0 < ((solve p x0 n).getD (m + 1) x0).CH) := by
  refine ⟨?_, ?_, ?_, ?_⟩
  · intro i hi
    refine frozen_eq_zero p x0 i fun m2 hm2 => ?_
    rw [hm] at hm2
    have : m = m2 := by injection hm2
    omega
  · exact fun i hi => frozen_eq_captured p x0 m hm i hi
  · intro i hi
    rw [solve_getD p x0 n i (lt_of_le_of_lt hi hmn) x0]
    refine CH_eq_zero p x0 hCH0 i fun m2 hm2 => ?_
    rw [hm] at hm2
    have : m = m2 := by injection hm2
    omega
  · intro hsucc
    rw [solve_getD p x0 n (m + 1) hsucc x0]
    rw [CH_after p x0 m hm (m + 1) (by omega)]
    exact mul_pos (mul_pos hS hκ) (Real.rpow_pos_of_pos hSR _)

/-- Witness for solve_freeze_capture with capture at day 0. -/
theorem solve_freeze_capture_w :
    (sysAt ⟨0, 0, 0, 0, 0, 0, 0, 0, 0, 1, 1, some 0⟩
        ⟨1/2, 0, 0, 0, 0, 0, 0, 0⟩ 1).2 =
      ((sysAt ⟨0, 0, 0, 0, 0, 0, 0, 0, 0, 1, 1, some 0⟩
          ⟨1/2, 0, 0, 0, 0, 0, 0, 0⟩ 0).1.S,
        ((sysAt ⟨0, 0, 0, 0, 0, 0, 0, 0, 0, 1, 1, some 0⟩
            ⟨1/2, 0, 0, 0, 0, 0, 0, 0⟩ 0).1.S +
         (sysAt ⟨0, 0, 0, 0, 0, 0, 0, 0, 0, 1, 1, some 0⟩
            ⟨1/2, 0, 0, 0, 0, 0, 0, 0⟩ 0).1.R) ^
          (⟨0, 0, 0, 0, 0, 0, 0, 0, 0, 1, 1, some 0⟩ : Params).σ)
    ∧ 0 < ((solve ⟨0, 0, 0, 0, 0, 0, 0, 0, 0, 1, 1, some 0⟩
        ⟨1/2, 0, 0, 0, 0, 0, 0, 0⟩ 2).getD 1 ⟨1/2, 0, 0, 0, 0, 0, 0, 0⟩).CH := by
  refine ⟨(solve_freeze_capture _ _ 0 2 rfl (by norm_num) (by norm_num) rfl
      (by norm_num [sysAt]) (by norm_num [sysAt])).2.1 1 (by norm_num),
    (solve_freeze_capture _ _ 0 2 rfl (by norm_num) (by norm_num) rfl
      (by norm_num [sysAt]) (by norm_num [sysAt])).2.2.2 (by norm_num)⟩

/-- With both frozen scalars equal to 0 and the Heaviside step still 0,
the transition step does not depend on κ0. -/
theorem step_frozen_zero_kappa (x : State) (t : ℕ) (p : Params)
    (hΘ : Θ t p.tc = 0) :
    SEAIHRD_markov_step x t 0 0 p =
      SEAIHRD_markov_step x t 0 0 { p with κ0 := 0 } := by
  simp [SEAIHRD_markov_step, P, k, hΘ]

/-- Before any capture can happen, the whole loop state of solve is
independent of κ0. -/
theorem sysAt_no_intervention (p : Params) (x0 : State) (n : ℕ)
    (h : ∀ m, p.tc = some m → n ≤ m) :
    ∀ i, i ≤ n → sysAt p x0 i = sysAt { p with κ0 := 0 } x0 i := by
  intro i
  induction i with
  | zero => intro _; rfl
  | succ j ih =>
    intro hj
    have hj2 : j ≤ n := by omega
    have hΘ : Θ j p.tc = 0 := by
      cases htc : p.tc with
      | none => rfl
      | some m =>
        have := h m htc
        simp [Θ]
        omega
    have hcap : ¬ p.tc = some j := by
      intro hc
      have := h j hc
      omega
    have hcap2 : ¬ ({ p with κ0 := 0 } : Params).tc = some j := hcap
    have hfr : (sysAt p x0 j).2 = (0, 0) :=
      frozen_eq_zero p x0 j fun m hm => by have := h m hm; omega
    have e1 : (sysAt p x0 j).2.1 = 0 := by rw [hfr]
    have e2 : (sysAt p x0 j).2.2 = 0 := by rw [hfr]
    rw [sysAt_succ, sysAt_succ, ← ih hj2]
    simp only [solveStep, if_neg hcap, if_neg hcap2]
    rw [e1, e2, step_frozen_zero_kappa (sysAt p x0 j).1 j p hΘ]

/-- C4: running solve with tc at the never sentinel (tc = ∞, embedded
as none, or any finite tc ≥ horizon) produces a trajectory identical at
every day to the run with κ0 = 0 and all other parameters (including
tc) equal, and in both runs the frozen scalars stay exactly (0, 0) for
the entire run. -/
theorem solve_no_intervention (p : Params) (x0 : State) (n : ℕ)
    (h : ∀ m, p.tc = some m → n ≤ m) :
    solve p x0 n = solve { p with κ0 := 0 } x0 n
    ∧ (∀ i, i ≤ n → (sysAt p x0 i).2 = (0, 0))
    ∧ (∀ i, i ≤ n → (sysAt { p with κ0 := 0 } x0 i).2 = (0, 0)) := by
  refine ⟨?_, ?_, ?_⟩
  · unfold solve
    refine List.map_congr_left fun i hi => ?_
    have hin : i < n := List.mem_range.mp hi
    rw [sysAt_no_intervention p x0 n h i (le_of_lt hin)]
  · exact fun i hi => frozen_eq_zero p x0 i fun m hm => le_trans hi (h m hm)
  · exact fun i hi => frozen_eq_zero _ x0 i fun m hm => le_trans hi (h m hm)

/-- Witness for solve_no_intervention with tc = ∞ and κ0 = 1/2. -/
theorem solve_no_intervention_w :
    solve ⟨0, 0, 0, 0, 0, 0, 0, 0, 0, 1/2, 1, none⟩ ⟨1, 0, 0, 0, 0, 0, 0, 0⟩ 1 =
      solve { (⟨0, 0, 0, 0, 0, 0, 0, 0, 0, 1/2, 1, none⟩ : Params) with κ0 := 0 }
        ⟨1, 0, 0, 0, 0, 0, 0, 0⟩ 1
    ∧ (sysAt ⟨0, 0, 0, 0, 0, 0, 0, 0, 0, 1/2, 1, none⟩
        ⟨1, 0, 0, 0, 0, 0, 0, 0⟩ 1).2 = (0, 0) := by
  exact ⟨(solve_no_intervention _ _ 1 (by simp)).1,
    (solve_no_intervention _ _ 1 (by simp)).2.1 1 (le_refl 1)⟩

/-- The contact number k(t) is non-negative for valid containment
parameters. -/
theorem k_nonneg (p : Params) (hk : 0 ≤ p.k_avg) (hκ0 : 0 ≤ p.κ0)
    (hκ1 : p.κ0 ≤ 1) (hσ : 1 ≤ p.σ) (t : ℕ) : 0 ≤ k t p := by
  unfold k Θ
  cases htc : p.tc with
  | none => simpa using hk
  | some m =>
    by_cases hm : m ≤ t
    · simp only [if_pos hm, mul_one]
      have h1 : 0 ≤ (1 - p.κ0) * p.k_avg := mul_nonneg (by linarith) hk
      have h2 : 0 ≤ p.κ0 * (p.σ - 1) := mul_nonneg hκ0 (by linarith)
      linarith
    · simp only [if_neg hm, mul_zero, sub_zero, one_mul, add_zero]
      exact hk

/-- The infection probability lies in [0, 1]: the base 1 - β is in
[0, 1] and the exponent k(t)·(I+A) is non-negative. -/
theorem P_bounds (p : Params) (hβ0 : 0 ≤ p.β) (hβ1 : p.β ≤ 1)
    (hk0 : 0 ≤ p.k_avg) (hκ0 : 0 ≤ p.κ0) (hκ1 : p.κ0 ≤ 1) (hσ : 1 ≤ p.σ)
    (I A : ℝ) (t : ℕ) (hIA : 0 ≤ I + A) :
    0 ≤ P I A t p ∧ P I A t p ≤ 1 := by
  have hexp : 0 ≤ k t p * (I + A) :=
    mul_nonneg (k_nonneg p hk0 hκ0 hκ1 hσ t) hIA
  have hb0 : (0 : ℝ) ≤ 1 - p.β := by linarith
  have hb1 : 1 - p.β ≤ 1 := by linarith
  have h1 : (1 - p.β) ^ (k t p * (I + A)) ≤ 1 := Real.rpow_le_one hb0 hb1 hexp
  have h2 : 0 ≤ (1 - p.β) ^ (k t p * (I + A)) := Real.rpow_nonneg hb0 _
  unfold P
  constructor <;> linarith

/-- C9: for every t, β in [0,1], I, A with I+A ≥ 0, k_avg ≥ 0, κ0 in
[0,1], σ ≥ 1 and every tc, the infection probability
1 - (1-β)^(k(t)·(I+A)) lies in [0, 1]: it saturates without explicit
clamping because the base is in [0,1] and the exponent is
non-negative. -/
theorem infection_probability_mem (I A : ℝ) (t : ℕ) (p : Params)
    (hβ0 : 0 ≤ p.β) (hβ1 : p.β ≤ 1) (hIA : 0 ≤ I + A) (hk0 : 0 ≤ p.k_avg)
    (hκ0 : 0 ≤ p.κ0) (hκ1 : p.κ0 ≤ 1) (hσ : 1 ≤ p.σ) :
    0 ≤ P I A t p ∧ P I A t p ≤ 1 :=
  P_bounds p hβ0 hβ1 hk0 hκ0 hκ1 hσ I A t hIA

/-- Witness for infection_probability_mem at a concrete configuration. -/
theorem infection_probability_mem_w :
    0 ≤ P 0 0 0 ⟨1/2, 3, 0, 0, 0, 0, 0, 0, 0, 1/2, 2, some 4⟩
    ∧ P 0 0 0 ⟨1/2, 3, 0, 0, 0, 0, 0, 0, 0, 1/2, 2, some 4⟩ ≤ 1 :=
  infection_probability_mem 0 0 0 _ (by norm_num) (by norm_num) (by norm_num)
    (by norm_num) (by norm_num) (by norm_num) (by norm_num)

/-- One transition step preserves non-negativity of all compartments,
for valid parameters and frozen scalars with S_tc ≥ 0, CH_tc ≥ 0 and
κ0·CH_tc ≤ 1. -/
theorem step_NN (p : Params) (hv : ValidParams p) (x : State) (hx : NN x)
    (t : ℕ) (S_tc CH_tc : ℝ) (hS : 0 ≤ S_tc) (hC : 0 ≤ CH_tc)
    (hκC : p.κ0 * CH_tc ≤ 1) :
    NN (SEAIHRD_markov_step x t S_tc CH_tc p) := by
  obtain ⟨hβ0, hβ1, hk0, hη0, hη1, hα0, hα1, hγI, hμI, hν, hIsum, hγH, hμH,
    hHsum, hκ0, hκ1, hσ⟩ := hv
  obtain ⟨hxS, hxE, hxCH, hxA, hxI, hxH, hxR, hxD⟩ := hx
  have hP := P_bounds p hβ0 hβ1 hk0 hκ0 hκ1 hσ x.I x.A t (by linarith)
  have hδf : 0 ≤ 1 - δ t p.tc * p.κ0 * CH_tc := by
    unfold δ
    cases p.tc with
    | none => simp
    | some m =>
      by_cases hm : t = m
      · simp only [if_pos hm, one_mul]
        linarith
      · simp only [if_neg hm, zero_mul]
        norm_num
  have hΘf : 0 ≤ Θ t p.tc := by
    unfold Θ
    cases p.tc with
    | none => exact le_refl 0
    | some m => by_cases hm : m ≤ t <;> simp [hm]
  simp only [NN, SEAIHRD_markov_step]
  refine ⟨?_, ?_, ?_, ?_, ?_, ?_, ?_, ?_⟩
  · exact mul_nonneg (mul_nonneg hxS (by linarith [hP.2])) hδf
  · exact add_nonneg (mul_nonneg (mul_nonneg hxS hP.1) hδf)
      (mul_nonneg (by linarith) hxE)
  · exact mul_nonneg (mul_nonneg (mul_nonneg hS hκ0) hC) hΘf
  · exact add_nonneg (mul_nonneg hη0 hxE) (mul_nonneg (by linarith) hxA)
  · exact add_nonneg (mul_nonneg hα0 hxA) (mul_nonneg (by linarith) hxI)
  · exact add_nonneg (mul_nonneg hν hxI) (mul_nonneg (by linarith) hxH)
  · exact add_nonneg (add_nonneg (mul_nonneg hγI hxI) (mul_nonneg hγH hxH)) hxR
  · exact add_nonneg (add_nonneg (mul_nonneg hμI hxI) (mul_nonneg hμH hxH)) hxD

/-- The scalars captured at the intervention day from a non-negative
state of total at most 1 satisfy the bounds the step needs:
S ≥ 0, (S+R)^σ in [0, 1], and κ0·(S+R)^σ ≤ 1. -/
theorem capture_props (p : Params) (hv : ValidParams p) (x : State)
    (hx : NN x) (ht : total x ≤ 1) :
    0 ≤ x.S ∧ 0 ≤ (x.S + x.R) ^ p.σ ∧ p.κ0 * ((x.S + x.R) ^ p.σ) ≤ 1 := by
  obtain ⟨hβ0, hβ1, hk0, hη0, hη1, hα0, hα1, hγI, hμI, hν, hIsum, hγH, hμH,
    hHsum, hκ0, hκ1, hσ⟩ := hv
  obtain ⟨hxS, hxE, hxCH, hxA, hxI, hxH, hxR, hxD⟩ := hx
  have hSR0 : 0 ≤ x.S + x.R := by linarith
  have hSR1 : x.S + x.R ≤ 1 := by
    unfold total at ht
    linarith
  have h2 : 0 ≤ (x.S + x.R) ^ p.σ := Real.rpow_nonneg hSR0 _
  have h3 : (x.S + x.R) ^ p.σ ≤ 1 := Real.rpow_le_one hSR0 hSR1 (by linarith)
  refine ⟨hxS, h2, ?_⟩
  nlinarith

/-- Invariant of the solver loop under valid parameters: every reached
state is componentwise non-negative, the total stays at most 1 until
the capture day, and the frozen scalars are non-negative with
κ0·CH_tc ≤ 1. -/
theorem sysAt_invariant (p : Params) (x0 : State) (hv : ValidParams p)
    (h0 : NN x0) (hsum : total x0 = 1) :
    ∀ i, NN (sysAt p x0 i).1
      ∧ ((∀ m, p.tc = some m → i ≤ m) → total (sysAt p x0 i).1 ≤ 1)
      ∧ 0 ≤ (sysAt p x0 i).2.1 ∧ 0 ≤ (sysAt p x0 i).2.2
      ∧ p.κ0 * (sysAt p x0 i).2.2 ≤ 1 := by
  intro i
  induction i with
  | zero =>
    refine ⟨h0, fun _ => le_of_eq hsum, le_refl 0, le_refl 0, ?_⟩
    simp [sysAt]
  | succ n ih =>
    obtain ⟨hNN, hTot, hf1, hf2, hf3⟩ := ih
    by_cases hcap : p.tc = some n
    · have htot_n : total (sysAt p x0 n).1 ≤ 1 := by
        refine hTot fun m hm => ?_
        rw [hcap] at hm
        have : n = m := by injection hm
        omega
      have hcp := capture_props p hv (sysAt p x0 n).1 hNN htot_n
      rw [sysAt_succ]
      simp only [solveStep, if_pos hcap]
      refine ⟨step_NN p hv _ hNN n _ _ hcp.1 hcp.2.1 hcp.2.2, ?_,
        hcp.1, hcp.2.1, hcp.2.2⟩
      intro hno
      exact absurd (hno n hcap) (by omega)
    · rw [sysAt_succ]
      simp only [solveStep, if_neg hcap]
      refine ⟨step_NN p hv _ hNN n _ _ hf1 hf2 hf3, ?_, hf1, hf2, hf3⟩
      intro hno
      have hδ0 : δ n p.tc = 0 := by
        unfold δ
        cases htc : p.tc with
        | none => rfl
        | some m =>
          have := hno m htc
          simp only [ite_eq_right_iff]
          omega
      have hΘ0 : Θ n p.tc = 0 := by
        unfold Θ
        cases htc : p.tc with
        | none => rfl
        | some m =>
          have := hno m htc
          simp only [ite_eq_right_iff]
          omega
      rw [step_total, hδ0, hΘ0]
      have hCHn : 0 ≤ ((sysAt p x0 n).1).CH := hNN.2.2.1
      have htot_n : total (sysAt p x0 n).1 ≤ 1 := by
        refine hTot fun m hm => ?_
        have := hno m hm
        omega
      simp only [zero_mul, mul_zero, sub_zero, add_zero]
      linarith

/-- The R and D outputs of one solver iteration in terms of the
previous state (they do not depend on the frozen scalars). -/
theorem sysAt_R_D_succ (p : Params) (x0 : State) (i : ℕ) :
    (sysAt p x0 (i + 1)).1.R =
      p.γI * (sysAt p x0 i).1.I + p.γH * (sysAt p x0 i).1.H
        + (sysAt p x0 i).1.R
    ∧ (sysAt p x0 (i + 1)).1.D =
      p.μI * (sysAt p x0 i).1.I + p.μH * (sysAt p x0 i).1.H
        + (sysAt p x0 i).1.D := by
  rw [sysAt_succ]
  constructor <;> simp [solveStep, SEAIHRD_markov_step]

/-- C5 (amended: the non-negative initial state must additionally sum
to 1, the data-model invariant of every model run): for valid
ModelParameters and every non-negative initial state of total 1, the R
and D components of the solve trajectory are non-decreasing in the day
index. -/
theorem solve_monotone_R_D (p : Params) (x0 : State) (n : ℕ)
    (hv : ValidParams p) (hx : NN x0) (hsum : total x0 = 1) :
    ∀ i, i + 1 < n →
      ((solve p x0 n).getD i x0).R ≤ ((solve p x0 n).getD (i + 1) x0).R
      ∧ ((solve p x0 n).getD i x0).D ≤ ((solve p x0 n).getD (i + 1) x0).D := by
  intro i hi
  rw [solve_getD p x0 n i (by omega) x0, solve_getD p x0 n (i + 1) hi x0]
  have hNN := (sysAt_invariant p x0 hv hx hsum i).1
  obtain ⟨hxS, hxE, hxCH, hxA, hxI, hxH, hxR, hxD⟩ := hNN
  obtain ⟨hβ0, hβ1, hk0, hη0, hη1, hα0, hα1, hγI, hμI, hν, hIsum, hγH, hμH,
    hHsum, hκ0, hκ1, hσ⟩ := hv
  have hRD := sysAt_R_D_succ p x0 i
  constructor
  · rw [hRD.1]
    have h1 : 0 ≤ p.γI * (sysAt p x0 i).1.I := mul_nonneg hγI hxI
    have h2 : 0 ≤ p.γH * (sysAt p x0 i).1.H := mul_nonneg hγH hxH
    linarith
  · rw [hRD.2]
    have h1 : 0 ≤ p.μI * (sysAt p x0 i).1.I := mul_nonneg hμI hxI
    have h2 : 0 ≤ p.μH * (sysAt p x0 i).1.H := mul_nonneg hμH hxH
    linarith

/-- Witness for solve_monotone_R_D at a concrete valid run. -/
theorem solve_monotone_R_D_w :
    ((solve ⟨0, 0, 0, 0, 0, 0, 0, 0, 0, 0, 1, none⟩
        ⟨1, 0, 0, 0, 0, 0, 0, 0⟩ 2).getD 0 ⟨1, 0, 0, 0, 0, 0, 0, 0⟩).R ≤
      ((solve ⟨0, 0, 0, 0, 0, 0, 0, 0, 0, 0, 1, none⟩
        ⟨1, 0, 0, 0, 0, 0, 0, 0⟩ 2).getD 1 ⟨1, 0, 0, 0, 0, 0, 0, 0⟩).R
    ∧ ((solve ⟨0, 0, 0, 0, 0, 0, 0, 0, 0, 0, 1, none⟩
        ⟨1, 0, 0, 0, 0, 0, 0, 0⟩ 2).getD 0 ⟨1, 0, 0, 0, 0, 0, 0, 0⟩).D ≤
      ((solve ⟨0, 0, 0, 0, 0, 0, 0, 0, 0, 0, 1, none⟩
        ⟨1, 0, 0, 0, 0, 0, 0, 0⟩ 2).getD 1 ⟨1, 0, 0, 0, 0, 0, 0, 0⟩).D :=
  solve_monotone_R_D _ _ 2 (by norm_num [ValidParams]) (by norm_num [NN])
    (by norm_num [total]) 0 (by norm_num)

/-- Counterexample to C5 as stated: with valid parameters
(β = 1, k_avg = 2, η = α = γI = 1, μI = ν = γH = μH = 0, κ0 = 1/2,
σ = 1, tc = 0) and the non-negative initial state (4,0,0,1,0,0,0,0)
(total 5, not 1), the captured CH_tc = (S+R)^σ = 4 makes
κ0·CH_tc = 2 > 1, the E compartment is driven negative at day 1 and R
decreases from day 3 to day 4. -/
theorem solve_monotone_cx :
    ValidParams ⟨1, 2, 1, 1, 1, 0, 0, 0, 0, 1/2, 1, some 0⟩
    ∧ NN ⟨4, 0, 0, 1, 0, 0, 0, 0⟩
    ∧ ((solve ⟨1, 2, 1, 1, 1, 0, 0, 0, 0, 1/2, 1, some 0⟩
        ⟨4, 0, 0, 1, 0, 0, 0, 0⟩ 5).getD 4 ⟨4, 0, 0, 1, 0, 0, 0, 0⟩).R <
      ((solve ⟨1, 2, 1, 1, 1, 0, 0, 0, 0, 1/2, 1, some 0⟩
        ⟨4, 0, 0, 1, 0, 0, 0, 0⟩ 5).getD 3 ⟨4, 0, 0, 1, 0, 0, 0, 0⟩).R := by
  refine ⟨by norm_num [ValidParams], by norm_num [NN], ?_⟩
  set pc : Params := ⟨1, 2, 1, 1, 1, 0, 0, 0, 0, 1/2, 1, some 0⟩ with hpc
  set y0 : State := ⟨4, 0, 0, 1, 0, 0, 0, 0⟩ with hy0
  have e1 : sysAt pc y0 1 = (⟨0, -4, 8, 0, 1, 0, 0, 0⟩, 4, 4) := by
    have h : sysAt pc y0 1 = solveStep pc 0 (sysAt pc y0 0) := rfl
    rw [h]
    simp only [sysAt, solveStep, SEAIHRD_markov_step, P, k, Θ, δ, hpc, hy0]
    norm_num [Real.rpow_one]
  have e2 : sysAt pc y0 2 = (⟨0, 0, 8, -4, 0, 0, 1, 0⟩, 4, 4) := by
    have h : sysAt pc y0 2 = solveStep pc 1 (sysAt pc y0 1) := rfl
    rw [h, e1]
    simp only [solveStep, SEAIHRD_markov_step, P, k, Θ, δ, hpc]
    norm_num [Real.rpow_one]
  have e3 : sysAt pc y0 3 = (⟨0, 0, 8, 0, -4, 0, 1, 0⟩, 4, 4) := by
    have h : sysAt pc y0 3 = solveStep pc 2 (sysAt pc y0 2) := rfl
    rw [h, e2]
    simp only [solveStep, SEAIHRD_markov_step, P, k, Θ, δ, hpc]
    norm_num [Real.zero_rpow]
  have e4 : sysAt pc y0 4 = (⟨0, 0, 8, 0, 0, 0, -3, 0⟩, 4, 4) := by
    have h : sysAt pc y0 4 = solveStep pc 3 (sysAt pc y0 3) := rfl
    rw [h, e3]
    simp only [solveStep, SEAIHRD_markov_step, P, k, Θ, δ, hpc]
    norm_num [Real.zero_rpow]
  rw [solve_getD pc y0 5 4 (by norm_num) y0, solve_getD pc y0 5 3 (by norm_num) y0,
    e3, e4]
  norm_num

theorem zip_abs_sum (x : List ℚ) :
    ∀ y : List ℚ, x.length ≤ y.length →
      ((x.zip y).map fun q => |q.1 - q.2|).sum =
        ∑ i ∈ Finset.range x.length, |x.getD i 0 - y.getD i 0| := by
  induction x with
  | nil => intro y h; simp
  | cons a xs ih =>
    intro y h
    cases y with
    | nil => simp at h
    | cons b ys =>
      simp only [List.zip_cons_cons, List.map_cons, List.sum_cons,
        List.length_cons]
      rw [Finset.sum_range_succ']
      simp only [List.getD_cons_succ, List.getD_cons_zero]
      rw [ih ys (by simpa using h)]
      ring

theorem take_getD (y : List ℚ) :
    ∀ (m j : ℕ), j < m → (y.take m).getD j 0 = y.getD j 0 := by
  induction y with
  | nil => intro m j h; simp
  | cons b ys ih =>
    intro m j h
    cases m with
    | zero => omega
    | succ m2 =>
      cases j with
      | zero => simp
      | succ i =>
        simp only [List.take_succ_cons, List.getD_cons_succ]
        exact ih m2 i (by omega)

theorem MAE_eq_some (x y : List ℚ) (h : x.length ≤ y.length) :
    MAE x y = some (MAEval x y) := by
  have hc : (y.take x.length).length = x.length := by
    rw [List.length_take]
    exact min_eq_left h
  unfold MAE
  rw [if_pos hc]

/-- C7 (amended: the operation is only defined when the observed
sequence is no longer than the projection; a two-or-more-entries-shorter
projection raises a shape error instead of being truncated): for
len(observed) ≤ len(projection), MAE returns the mean of the absolute
element-wise differences over the first min(len x, len y) = len x
entries of both sequences. -/
theorem MAE_front_window (x y : List ℚ) (h : x.length ≤ y.length) :
    MAE x y = some (MAEspec x y) := by
  rw [MAE_eq_some x y h]
  congr 1
  unfold MAEval MAEspec
  have hmin : min x.length y.length = x.length := min_eq_left h
  rw [hmin]
  have hlen : x.length ≤ (y.take x.length).length := by
    rw [List.length_take, min_eq_left h]
  rw [zip_abs_sum x (y.take x.length) hlen]
  congr 1
  refine Finset.sum_congr rfl fun i hi => ?_
  rw [take_getD y x.length i (Finset.mem_range.mp hi)]

/-- Witness for MAE_front_window on a concrete pair. -/
theorem MAE_front_window_w :
    MAE [1] [2, 3] = some (MAEspec [1] [2, 3]) :=
  MAE_front_window [1] [2, 3] (by simp)

/-- Counterexample to C7 as stated: with observed = [0,0,0] and
projection = [5,5], the overlapping-front-window mean exists (it is 5),
but the code's MAE raises a numpy shape error (embedded as none): the
subtraction x[:] - y[:len(x)] does not truncate x to the shorter
projection. -/
theorem MAE_cx :
    MAE [0, 0, 0] [5, 5] = none ∧ MAEspec [0, 0, 0] [5, 5] = 5 := by
  constructor
  · rfl
  · norm_num [MAEspec, Finset.sum_range_succ, Finset.sum_range_zero]

theorem foldl_min_le (as : List ℚ) : ∀ a : ℚ, as.foldl min a ≤ a := by
  induction as with
  | nil => intro a; exact le_refl a
  | cons c cs ih =>
    intro a
    exact le_trans (ih (min a c)) (min_le_left a c)

theorem foldl_min_le_mem (as : List ℚ) :
    ∀ (a b : ℚ), b ∈ as → as.foldl min a ≤ b := by
  induction as with
  | nil => intro a b h; simp at h
  | cons c cs ih =>
    intro a b h
    rcases List.mem_cons.mp h with rfl | h2
    · exact le_trans (foldl_min_le cs (min a b)) (min_le_right a b)
    · exact ih (min a c) b h2

theorem foldl_min_mem (as : List ℚ) :
    ∀ a : ℚ, as.foldl min a = a ∨ as.foldl min a ∈ as := by
  induction as with
  | nil => intro a; left; rfl
  | cons c cs ih =>
    intro a
    rcases ih (min a c) with h | h
    · rcases min_choice a c with h2 | h2
      · left
        rw [List.foldl_cons, h, h2]
      · right
        rw [List.foldl_cons, h, h2]
        exact List.mem_cons_self c cs
    · right
      exact List.mem_cons_of_mem c h

theorem listMin_mem (l : List ℚ) (h : l ≠ []) : listMin l ∈ l := by
  cases l with
  | nil => exact absurd rfl h
  | cons a as =>
    simp only [listMin]
    rcases foldl_min_mem as a with h2 | h2
    · rw [h2]
      exact List.mem_cons_self a as
    · exact List.mem_cons_of_mem a h2

theorem listMin_le (l : List ℚ) (b : ℚ) (h : b ∈ l) : listMin l ≤ b := by
  cases l with
  | nil => simp at h
  | cons a as =>
    simp only [listMin]
    rcases List.mem_cons.mp h with rfl | h2
    · exact foldl_min_le as b
    · exact foldl_min_le_mem as a b h2

theorem listIndex_lt (l : List ℚ) (a : ℚ) (h : a ∈ l) :
    listIndex a l < l.length := by
  induction l with
  | nil => simp at h
  | cons b bs ih =>
    unfold listIndex
    by_cases hb : b = a
    · simp [hb]
    · simp only [if_neg hb, List.length_cons]
      have h2 : a ∈ bs := by
        rcases List.mem_cons.mp h with rfl | h2
        · exact absurd rfl hb
        · exact h2
      have := ih h2
      omega

theorem listIndex_getD (l : List ℚ) (a : ℚ) (h : a ∈ l) :
    l.getD (listIndex a l) 0 = a := by
  induction l with
  | nil => simp at h
  | cons b bs ih =>
    unfold listIndex
    by_cases hb : b = a
    · simp [hb]
    · simp only [if_neg hb, List.getD_cons_succ]
      refine ih ?_
      rcases List.mem_cons.mp h with rfl | h2
      · exact absurd rfl hb
      · exact h2

theorem listIndex_first (l : List ℚ) (a : ℚ) (h : a ∈ l) :
    ∀ j, j < listIndex a l → l.getD j 0 ≠ a := by
  induction l with
  | nil =>
    intro j hj
    simp [listIndex] at hj
  | cons b bs ih =>
    intro j hj
    unfold listIndex at hj
    by_cases hb : b = a
    · rw [if_pos hb] at hj
      omega
    · rw [if_neg hb] at hj
      cases j with
      | zero => simpa using hb
      | succ i =>
        simp only [List.getD_cons_succ]
        have h2 : a ∈ bs := by
          rcases List.mem_cons.mp h with rfl | h2
          · exact absurd rfl hb
          · exact h2
        exact ih h2 i (by omega)

theorem getD_mem (l : List ℚ) (j : ℕ) (h : j < l.length) : l.getD j 0 ∈ l := by
  induction l generalizing j with
  | nil => simp at h
  | cons b bs ih =>
    cases j with
    | zero => simp
    | succ i =>
      simp only [List.getD_cons_succ]
      have h2 : i < bs.length := by
        simp at h
        omega
      exact List.mem_cons_of_mem b (ih i h2)

theorem map_getD (g : ℚ → ℚ) (l : List ℚ) (j : ℕ) (h : j < l.length) :
    (l.map g).getD j 0 = g (l.getD j 0) := by
  induction l generalizing j with
  | nil => simp at h
  | cons b bs ih =>
    cases j with
    | zero => simp
    | succ i =>
      simp only [List.map_cons, List.getD_cons_succ]
      have h2 : i < bs.length := by
        simp at h
        omega
      exact ih i h2

theorem seqOpt_map_some (l : List ℚ) : seqOpt (l.map some) = some l := by
  induction l with
  | nil => rfl
  | cons a as ih => simp [seqOpt, ih]

/-- C6 (amended: the observed series must be no longer than each
candidate's no-containment projection, otherwise the MAE evaluation
inside cross_validation raises and the pipeline aborts): for every
observed series and non-empty candidate list, the calibration pipeline
returns the candidate whose MAE against its projection is minimal,
taking the first candidate in the supplied order on ties; as a pure
function of its inputs it is deterministic. -/
theorem calibrate_first_min (data : List ℚ) (f : ℚ → List ℚ) (rs : List ℚ)
    (hne : rs ≠ []) (hlen : ∀ r ∈ rs, data.length ≤ (f r).length) :
    ∃ i, i < rs.length
      ∧ calibrate data f rs = some (rs.getD i 0)
      ∧ (∀ j, j < rs.length →
          MAEval data (f (rs.getD i 0)) ≤ MAEval data (f (rs.getD j 0)))
      ∧ (∀ j, j < i →
          MAEval data (f (rs.getD i 0)) < MAEval data (f (rs.getD j 0))) := by
  have hmaps : rs.map (fun r => MAE data (f r)) =
      (rs.map fun r => MAEval data (f r)).map some := by
    rw [List.map_map]
    refine List.map_congr_left fun r hr => ?_
    exact MAE_eq_some data (f r) (hlen r hr)
  have hcal : calibrate data f rs =
      some (r_min rs (rs.map fun r => MAEval data (f r))) := by
    unfold calibrate cross_validation
    rw [hmaps, seqOpt_map_some]
    rfl
  set maes := rs.map fun r => MAEval data (f r) with hmaes
  have hml : maes.length = rs.length := by
    rw [hmaes, List.length_map]
  have hmne : maes ≠ [] := by
    rw [hmaes]
    simpa using hne
  have hmem : listMin maes ∈ maes := listMin_mem maes hmne
  have hidx : listIndex (listMin maes) maes < rs.length := by
    rw [← hml]
    exact listIndex_lt maes _ hmem
  have ei : MAEval data (f (rs.getD (listIndex (listMin maes) maes) 0)) =
      maes.getD (listIndex (listMin maes) maes) 0 := by
    rw [hmaes]
    exact (map_getD (fun r => MAEval data (f r)) rs _ hidx).symm
  refine ⟨listIndex (listMin maes) maes, hidx, ?_, ?_, ?_⟩
  · rw [hcal]
    rfl
  · intro j hj
    have ej : MAEval data (f (rs.getD j 0)) = maes.getD j 0 := by
      rw [hmaes]
      exact (map_getD (fun r => MAEval data (f r)) rs j hj).symm
    rw [ei, ej, listIndex_getD maes _ hmem]
    refine listMin_le maes _ (getD_mem maes j ?_)
    rw [hml]
    exact hj
  · intro j hj
    have hjr : j < rs.length := lt_trans hj hidx
    have ej : MAEval data (f (rs.getD j 0)) = maes.getD j 0 := by
      rw [hmaes]
      exact (map_getD (fun r => MAEval data (f r)) rs j hjr).symm
    rw [ei, ej, listIndex_getD maes _ hmem]
    have hne2 : maes.getD j 0 ≠ listMin maes :=
      listIndex_first maes _ hmem j hj
    refine lt_of_le_of_ne ?_ (Ne.symm hne2)
    refine listMin_le maes _ (getD_mem maes j ?_)
    rw [hml]
    exact hjr

/-- Witness for calibrate_first_min on a concrete one-candidate grid. -/
theorem calibrate_first_min_w : calibrate [] (fun _ => []) [1] = some 1 := by
  obtain ⟨i, hi, hcal, h1, h2⟩ :=
    calibrate_first_min [] (fun _ => []) [1] (by simp) (by simp)
  have h0 : i = 0 := by
    simp at hi
    omega
  subst h0
  simpa using hcal

/-- Counterexample to C6 as stated: an observed series longer by two
than the projections makes the MAE evaluation raise, so the calibration
pipeline aborts (none) instead of returning any candidate. -/
theorem calibrate_cx : calibrate [0, 0, 0] (fun _ => [5, 5]) [1] = none := by
  rfl

theorem sumAxis0_length (L : List (List ℝ)) (n : ℕ)
    (h : ∀ l ∈ L, l.length = n) (hne : L ≠ []) : (sumAxis0 L).length = n := by
  induction L with
  | nil => exact absurd rfl hne
  | cons v rest ih =>
    cases rest with
    | nil =>
      simp only [sumAxis0]
      exact h v (by simp)
    | cons w rest2 =>
      simp only [sumAxis0, List.length_zipWith]
      rw [ih (fun l hl => h l (List.mem_cons_of_mem v hl)) (by simp)]
      rw [h v (by simp)]
      simp

theorem zipWith_add_getD (a : List ℝ) :
    ∀ (b : List ℝ) (d : ℕ), d < a.length → d < b.length →
      (List.zipWith (fun s r => s + r) a b).getD d 0 =
        a.getD d 0 + b.getD d 0 := by
  induction a with
  | nil => intro b d ha hb; simp at ha
  | cons s ss ih =>
    intro b d ha hb
    cases b with
    | nil => simp at hb
    | cons r rr =>
      cases d with
      | zero => simp
      | succ i =>
        simp only [List.zipWith_cons_cons, List.getD_cons_succ]
        have h1 : i < ss.length := by
          simp at ha
          omega
        have h2 : i < rr.length := by
          simp at hb
          omega
        exact ih rr i h1 h2

theorem sumAxis0_getD (L : List (List ℝ)) (n d : ℕ)
    (h : ∀ l ∈ L, l.length = n) (hd : d < n) :
    (sumAxis0 L).getD d 0 = (L.map fun l => l.getD d 0).sum := by
  induction L with
  | nil => simp [sumAxis0]
  | cons v rest ih =>
    cases rest with
    | nil => simp [sumAxis0]
    | cons w rest2 =>
      have hv : v.length = n := h v (by simp)
      have hrest : ∀ l ∈ w :: rest2, l.length = n :=
        fun l hl => h l (List.mem_cons_of_mem v hl)
      have hlen : (sumAxis0 (w :: rest2)).length = n :=
        sumAxis0_length (w :: rest2) n hrest (by simp)
      simp only [sumAxis0, List.map_cons, List.sum_cons]
      rw [zipWith_add_getD v (sumAxis0 (w :: rest2)) d (by omega) (by omega)]
      rw [ih hrest, List.map_cons, List.sum_cons]

/-- C8: for every list of per-region trajectories of a common length n
and every day d < n, the national aggregated total-cases value at day d
equals the sum over the regions of that region's total cases
(I + H + R + D) at day d. -/
theorem aggregation_additive (sols : List (List State)) (n d : ℕ)
    (h : ∀ sol ∈ sols, sol.length = n) (hd : d < n) :
    (CasesAggregation sols TotalCases).getD d 0 =
      (sols.map fun sol => (TotalCases sol).getD d 0).sum := by
  have hlen : ∀ l ∈ sols.map TotalCases, l.length = n := by
    intro l hl
    obtain ⟨sol, hsol, rfl⟩ := List.mem_map.mp hl
    simp only [TotalCases, List.length_map]
    exact h sol hsol
  unfold CasesAggregation
  rw [sumAxis0_getD (sols.map TotalCases) n d hlen hd, List.map_map]
  rfl

/-- Witness for aggregation_additive on a one-region, one-day list. -/
theorem aggregation_additive_w :
    (CasesAggregation [[⟨0, 0, 0, 0, 1, 2, 3, 4⟩]] TotalCases).getD 0 0 =
      ([[(⟨0, 0, 0, 0, 1, 2, 3, 4⟩ : State)]].map fun sol =>
        (TotalCases sol).getD 0 0).sum := by
  refine aggregation_additive _ 1 0 ?_ (by norm_num)
  intro sol hsol
  simp at hsol
  subst hsol
  rfl

end SEIHRD
